import Mathlib

/-
Verification of the gocp concurrent directory-copy engine (gocp.go).

The Go source is shallowly embedded: strings are `List Char`, Go's lexical
path functions (path/filepath Clean, Join, Rel and strings.Replace) are
modelled character-for-character, the directory walk is modelled as the
sequence of callbacks filepath.WalkDir delivers, and the orchestration in
`main` is modelled as an effect pipeline (with oracles for the
nondeterministic outcomes: pool-submit acceptance and per-file I/O errors).
Machine integers (uint64) never approach overflow in any statement proved
here, so they are modelled as Nat.
-/

namespace Gocp

/-- Convert a string literal to the `List Char` representation used throughout. -/
def s2l (s : String) : List Char := s.data

/- ---------------------------------------------------------------------------
Go lexical path functions (path/filepath, strings), as used by gocp.go.
--------------------------------------------------------------------------- -/

/-- Split a path on every `'/'`. Models the element decomposition that Go's
`filepath.Clean` performs; consecutive separators yield empty elements. -/
def splitOnSlash : List Char → List (List Char)
  | [] => [[]]
  | c :: rest =>
    if c = '/' then [] :: splitOnSlash rest
    else
      match splitOnSlash rest with
      | [] => [[c]]
      | g :: gs => (c :: g) :: gs

/-- Join path elements with `'/'`. -/
def joinSlash : List (List Char) → List Char
  | [] => []
  | [c] => c
  | c :: rest => c ++ '/' :: joinSlash rest

/-- Whether a path is rooted (starts with `'/'`), as in Go's `filepath.Clean`. -/
def isRooted : List Char → Bool
  | [] => false
  | c :: _ => c == '/'

/-- One step of `filepath.Clean`'s element processing (stack kept reversed,
head = most recently emitted element): empty and `"."` elements are dropped,
`".."` pops the previous element (except at the root of a rooted path, where
it vanishes, and at the front of a relative path, where it is kept). -/
def cleanPush (rooted : Bool) (st : List (List Char)) (c : List Char) : List (List Char) :=
  if c = [] ∨ c = ['.'] then st
  else if c = ['.', '.'] then
    match st with
    | [] => if rooted then [] else [['.', '.']]
    | top :: rest => if top = ['.', '.'] then c :: top :: rest else rest
  else c :: st

/-- The cleaned element list of a path: fold `cleanPush` over its elements
(the stack comes out reversed). -/
def cleanComps (rooted : Bool) (p : List Char) : List (List Char) :=
  ((splitOnSlash p).foldl (cleanPush rooted) []).reverse

/-- Go's `filepath.Clean` (unix rules): shortest lexically equivalent path.
An empty result renders as `"/"` (rooted) or `"."`; otherwise the surviving
elements are rejoined, with the root separator restored. -/
def pathClean (p : List Char) : List Char :=
  if cleanComps (isRooted p) p = [] then (if isRooted p then ['/'] else ['.'])
  else if isRooted p then '/' :: joinSlash (cleanComps (isRooted p) p)
  else joinSlash (cleanComps (isRooted p) p)

/-- Go's `filepath.Join(a, b)`: the non-empty elements joined with `'/'`,
then cleaned; all-empty input yields the empty string. -/
def filepathJoin (a b : List Char) : List Char :=
  match a, b with
  | [], [] => []
  | [], b => pathClean b
  | a, [] => pathClean a
  | a, b => pathClean (a ++ '/' :: b)

/-- Index of the first occurrence of `old` in `s` (Go's `strings.Index`). -/
def findSub : List Char → List Char → Option Nat
  | s, old =>
    if old.isPrefixOf s then some 0
    else
      match s with
      | [] => none
      | _ :: rest => (findSub rest old).map (fun n => n + 1)

/-- Go's `strings.Replace(s, old, "", 1)`: delete the first occurrence of
`old` from `s` (`s` unchanged when `old` does not occur). -/
def replaceOnce (s old : List Char) : List Char :=
  match findSub s old with
  | none => s
  | some i => s.take i ++ s.drop (i + old.length)

/-- The path elements of a cleaned path with any leading root separator
removed, as Go's `filepath.Rel` compares them ("" has no elements). -/
def pathElems (x : List Char) : List (List Char) :=
  match x with
  | [] => []
  | c :: rest =>
    if c = '/' then (if rest = [] then [] else splitOnSlash rest)
    else splitOnSlash (c :: rest)

/-- Strip the longest common element prefix of two element lists, returning
both remainders (the element loop of Go's `filepath.Rel`). -/
def stripCommon : List (List Char) → List (List Char) → List (List Char) × List (List Char)
  | [], t => ([], t)
  | b, [] => (b, [])
  | b0 :: bs, t0 :: ts =>
    if b0 = t0 then stripCommon bs ts else (b0 :: bs, t0 :: ts)

/-- Go's `filepath.Rel(base, targ)` (unix, no volume names): both paths are
cleaned; equal paths give `"."`; mixing rooted and relative paths is an
error; otherwise the common element prefix is dropped, a remaining `".."`
base element is an error, and the result climbs with `".."` once per
remaining base element before descending into the target remainder. -/
def filepathRel (base targ : List Char) : Option (List Char) :=
  let bc := pathClean base
  let tc := pathClean targ
  if bc = tc then some ['.']
  else if isRooted bc ≠ isRooted tc then none
  else
    let be := if bc = ['.'] then [] else pathElems bc
    let te := pathElems tc
    let p := stripCommon be te
    if p.1.head? = some ['.', '.'] then none
    else some (joinSlash (List.replicate p.1.length ['.', '.'] ++ p.2))

/-- A normal path component: non-empty, not `"."`, not `".."`, and free of
separators. The walked paths of a source tree are its root joined with a
sequence of normal components; `normalComp` delimits the inputs on which the
two target-path derivations of gocp.go are compared. -/
def normalComp (c : List Char) : Prop :=
  c ≠ [] ∧ c ≠ ['.'] ∧ c ≠ ['.', '.'] ∧ '/' ∉ c

instance (c : List Char) : Decidable (normalComp c) := by
  unfold normalComp
  infer_instance

/-- Build a path from a root flag and a component list. -/
def renderPath (rooted : Bool) (comps : List (List Char)) : List Char :=
  (if rooted then ['/'] else []) ++ joinSlash comps

/- ---------------------------------------------------------------------------
Work partitioning (gocp.go `chunkArray`, lines 313-323) and the chunk-size
computation in `main` (lines 93-94 and 123-124).
--------------------------------------------------------------------------- -/

/-- `chunkArray(entities, chunkSize)` (gocp.go:313-323): slice the list into
consecutive pieces of `chunkSize` elements (`entities[i:min(i+chunkSize,len)]`,
`i += chunkSize`). The Go loop does not terminate when `chunkSize = 0` and the
list is non-empty (the index never advances), so the loop is embedded with a
fuel bound: `none` means the loop is still running after `fuel` iterations. -/
def chunkArrayFuel (chunkSize : Nat) : Nat → List (List Char) → Option (List (List (List Char)))
  | _, [] => some []
  | 0, _ :: _ => none
  | fuel + 1, e :: rest =>
    (chunkArrayFuel chunkSize fuel ((e :: rest).drop chunkSize)).map
      (fun cs => (e :: rest).take chunkSize :: cs)

/-- Go's `math.Round`: nearest integer, halves away from zero. -/
def mathRound (q : ℚ) : ℤ :=
  if q < 0 then -Int.floor (-q + 1/2) else Int.floor (q + 1/2)

/-- The chunk size `main` computes (gocp.go:93-94, 123-124):
`int(math.Round(float64(count / threads)))` where `count / threads` is Go
*integer* (uint64) division, performed before the conversion to float64.
Counts stay far below 2^53, so the float64 holds the quotient exactly and
`math.Round` returns it unchanged; `goChunkSize_models_round` proves this
definition equal to `mathRound` applied to the integer quotient. -/
def goChunkSize (n w : Nat) : Nat := n / w

/-- Modelled from the spec's words (for comparison with `goChunkSize`):
"Target chunk size = round(len(paths) / workerCount) (rounds to nearest
integer, not floor)" — i.e. `mathRound` of the exact rational `n / w`,
which for nonnegative values is `⌊(2n + w) / 2w⌋`; `specChunkSize_models_round`
proves this definition equal to that reading. -/
def specChunkSize (n w : Nat) : Nat := (2 * n + w) / (2 * w)

/-- The partition pipeline of `main`: chunk size from the list length and the
thread count, then `chunkArray` (fuel-bounded as above). -/
def partitionGo (l : List (List Char)) (w : Nat) (fuel : Nat) :
    Option (List (List (List Char))) :=
  chunkArrayFuel (goChunkSize l.length w) fuel l

/- ---------------------------------------------------------------------------
Directory scan (gocp.go `getFilesAndDir`, lines 272-300).

A source tree is modelled by the sequence of callbacks `filepath.WalkDir`
delivers: one `entry` event per visited path (each directory before its
children, children in sorted name order), and a `fail` event at the point the
walk encounters an error (a missing root yields a single `fail` event; an
unreadable directory yields its `entry` event followed by a `fail` event for
it, since WalkDir reports the ReadDir error by calling the callback a second
time). The callback returns the error, which aborts the walk.
--------------------------------------------------------------------------- -/

inductive WalkEvent where
  | entry (path : List Char) (isDir : Bool) (size : Nat)
  | fail (path : List Char)
deriving DecidableEq

/-- The scan's accumulated state: the four results of `getFilesAndDir` plus
whether the "Error counting files:" message was printed (gocp.go:296-298). -/
structure ScanResult where
  filesCount : Nat
  totalSize : Nat
  directories : List (List Char)
  files : List (List Char)
  errPrinted : Bool
deriving DecidableEq

/-- The WalkDir callback of `getFilesAndDir` (gocp.go:277-295) folded over the
walk events: a directory entry is appended to `directories`; any other entry
bumps `filesCount`, adds its size, and is appended to `files`; an error makes
the callback return it, aborting the walk — `getFilesAndDir` then only prints
the error and still returns the partial results. -/
def scanEvents : List WalkEvent → ScanResult → ScanResult
  | [], r => r
  | .entry p true _ :: rest, r =>
    scanEvents rest { r with directories := r.directories ++ [p] }
  | .entry p false sz :: rest, r =>
    scanEvents rest
      { r with filesCount := r.filesCount + 1, totalSize := r.totalSize + sz,
               files := r.files ++ [p] }
  | .fail _ :: _, r => { r with errPrinted := true }

/-- `getFilesAndDir` (gocp.go:272-300) over a walk-event sequence. -/
def getFilesAndDir (events : List WalkEvent) : ScanResult :=
  scanEvents events ⟨0, 0, [], [], false⟩

/- ---------------------------------------------------------------------------
Folder replication (gocp.go `createFolders`, lines 302-311) and file copy
(gocp.go `copyFile`, lines 248-270, and `copyFiles`, lines 187-198).
--------------------------------------------------------------------------- -/

/-- Target path the folder replicator derives (gocp.go:304-305):
`filepath.Join(targetPath, relativePath)` where `relativePath` comes from
`filepath.Rel(sourcePath, folder)` with the error discarded (`relativePath, _ :=`),
so an error leaves the Go zero value `""`. -/
def folderDest (sourcePath targetPath p : List Char) : List Char :=
  filepathJoin targetPath ((filepathRel sourcePath p).getD [])

/-- Target path the file copier derives (gocp.go:189-190):
`filepath.Join(targetPath, strings.Replace(file, sourcePath, "", 1))`. -/
def fileDest (sourcePath targetPath p : List Char) : List Char :=
  filepathJoin targetPath (replaceOnce p sourcePath)

/-- `createFolders` (gocp.go:302-311): the sequence of target directories it
passes to `os.MkdirAll` (creation errors are printed and do not stop the loop,
so every folder in the chunk is attempted). -/
def createFolders (sourcePath targetPath : List Char) (folders : List (List Char)) :
    List (List Char) :=
  folders.map (fun folder => folderDest sourcePath targetPath folder)

/-- The file-system surroundings of `copyFile`: the readable source files with
their contents, the destination paths where `os.Create` fails, the source
paths where `io.Copy` fails mid-stream, and the target-side files. -/
structure World where
  srcFS : List (List Char × List Nat)
  createFails : List (List Char)
  copyFails : List (List Char)
  dstFS : List (List Char × List Nat)
deriving DecidableEq

/-- Overwrite (or add) a key in an association list. -/
def updateAssoc (m : List (List Char × List Nat)) (k : List Char) (v : List Nat) :
    List (List Char × List Nat) :=
  match m with
  | [] => [(k, v)]
  | (k0, v0) :: rest =>
    if k0 = k then (k, v) :: rest else (k0, v0) :: updateAssoc rest k v

/-- `copyFile(src, dst)` (gocp.go:248-270), in source order: `os.Open(src)`
(fails iff `src` is not a readable source file — returns the wrapped error
with nothing else done), then `os.Create(dst)` (on failure returns the wrapped
error; on success truncates `dst` to empty), then `io.Copy` (on failure leaves
`dst` truncated and returns the wrapped error, otherwise `dst` holds the
source bytes). -/
def copyFile (w : World) (src dst : List Char) : Except (List Char) Unit × World :=
  match List.lookup src w.srcFS with
  | none => (Except.error (s2l "Cannot open source file"), w)
  | some data =>
    if dst ∈ w.createFails then (Except.error (s2l "Failed to create target file"), w)
    else
      let w1 := { w with dstFS := updateAssoc w.dstFS dst [] }
      if src ∈ w.copyFails then (Except.error (s2l "Failed to copy file"), w1)
      else (Except.ok (), { w1 with dstFS := updateAssoc w1.dstFS dst data })

/-- State threaded through `copyFiles`: the world, the log of copy operations
performed (src, dst — one per `copyFile` call), the per-file error lines
printed, and the progress-bar count (`barMain.Increment()` calls). -/
structure CopyState where
  world : World
  copies : List (List Char × List Char)
  errorsPrinted : List (List Char)
  completed : Nat
deriving DecidableEq

/-- One iteration of the `copyFiles` loop body (gocp.go:188-197): derive the
destination, call `copyFile`, print the error if it failed, and increment the
progress bar unconditionally. -/
def copyFileStep (sourcePath targetPath : List Char) (st : CopyState) (file : List Char) :
    CopyState :=
  let destFile := fileDest sourcePath targetPath file
  let r := copyFile st.world file destFile
  { world := r.2,
    copies := st.copies ++ [(file, destFile)],
    errorsPrinted := st.errorsPrinted ++ (match r.1 with
      | Except.error _ => [file]
      | Except.ok _ => []),
    completed := st.completed + 1 }

/-- `copyFiles` (gocp.go:187-198): the loop over the chunk. -/
def copyFiles (sourcePath targetPath : List Char) (files : List (List Char))
    (st : CopyState) : CopyState :=
  files.foldl (copyFileStep sourcePath targetPath) st

/- ---------------------------------------------------------------------------
Orchestration (`main`, gocp.go:40-146).

Three complementary models, each faithful to one aspect of `main`:
  * `runMain` — the effect pipeline: which folders get created, which copy
    operations get performed, and the final progress count. Chunks run
    concurrently in Go; their effects are recorded here chunk by chunk in
    submission order, which is adequate because every statement proved below
    depends only on which effects occur, never on cross-chunk interleaving.
  * `submitWithFallback` — the submit loop shared by both phases
    (gocp.go:101-113 and 129-139), with an oracle for the nondeterministic
    outcome of the non-blocking `Submit`.
  * `mainTrace` — the sequence of orchestration events `main` itself performs,
    including the `defer poolFolder.Stop()` (gocp.go:98) which runs only when
    `main` returns.
--------------------------------------------------------------------------- -/

/-- Observable outcome of a run of `main` (the effect model). -/
structure MainResult where
  abortedEarly : Bool
  scanErrPrinted : Bool
  summaryFileCount : Nat
  summarySize : Nat
  summaryFolderCount : Nat
  foldersCreated : List (List Char)
  copies : List (List Char × List Char)
  completed : Nat
deriving DecidableEq

/-- A default `MainResult` (used only to read a value out of an `Option`). -/
def mrDefault : MainResult := ⟨false, false, 0, 0, 0, [], [], 0⟩

/-- The effect pipeline of `main` (gocp.go:67-146): if `os.Stat(sourcePath)`
reports the source missing, `main` prints a message and returns (line 71-74)
— modelled by `sourceExists = false`; otherwise the target root is created if
absent (line 77-79), the tree is scanned (line 85), the directories are
chunked (93-94) and every folder chunk is passed to `createFolders` (101-113,
whether by a pool worker or by the synchronous fallback), the files are
chunked (123-124, the size computed from `totalFileCount`) and every file
chunk is passed to `copyFiles` (129-139). `none` means a `chunkArray` call
was still looping after `fuel` iterations (chunk size 0). Note that `main`
never inspects the scan for errors: the pipeline runs unconditionally. -/
def runMain (sourcePath targetPath : List Char) (sourceExists targetExists : Bool)
    (events : List WalkEvent) (threads : Nat) (w : World) (fuel : Nat) :
    Option MainResult :=
  if sourceExists = false then some ⟨true, false, 0, 0, 0, [], [], 0⟩
  else
    let pre := if targetExists then [] else [targetPath]
    let scan := getFilesAndDir events
    match chunkArrayFuel (goChunkSize scan.directories.length threads) fuel scan.directories with
    | none => none
    | some folderChunks =>
      let created :=
        pre ++ (folderChunks.map (fun c => createFolders sourcePath targetPath c)).flatten
      match chunkArrayFuel (goChunkSize scan.filesCount threads) fuel scan.files with
      | none => none
      | some fileChunks =>
        let st := fileChunks.foldl
          (fun st c => copyFiles sourcePath targetPath c st) ⟨w, [], [], 0⟩
        some ⟨false, scan.errPrinted, scan.filesCount, scan.totalSize,
              scan.directories.length, created, st.copies, st.completed⟩

/-- Who ends up running a chunk's work. -/
inductive Executor where
  | pool
  | sync
deriving DecidableEq

/-- The submit loop of `main` for one phase (gocp.go:101-113 for folders,
129-139 for files): each chunk is submitted once; `accepted i` tells whether
the non-blocking `Submit` handed chunk `i` to a ready worker (an accepted
task is executed exactly once by that worker, since the handoff channel is
unbuffered and `Stop` drains the pool before `main` returns); on
`ErrTaskQueueFull` the loop sleeps and runs the same chunk synchronously.
Either way each chunk is paired with exactly one executor. -/
def submitWithFallback (accepted : Nat → Bool) :
    Nat → List (List (List Char)) → List (Executor × List (List Char))
  | _, [] => []
  | i, c :: rest =>
    (if accepted i then (Executor.pool, c) else (Executor.sync, c))
      :: submitWithFallback accepted (i + 1) rest

/-- The orchestration steps `main` performs, in program order. -/
inductive Ev where
  | scanned
  | folderSubmitted (i : Nat) (accepted : Bool)
  | folderSyncRun (i : Nat)
  | barStarted
  | copySubmitted (i : Nat) (accepted : Bool)
  | copySyncRun (i : Nat)
  | copyPoolStopped
  | barFinished
  | folderPoolStopped
deriving DecidableEq

/-- The events of one submit loop: a submission per chunk, followed by the
synchronous fallback run when the submission was rejected. -/
def phaseEvents (mkSubmit : Nat → Bool → Ev) (mkSync : Nat → Ev)
    (accepted : Nat → Bool) (i : Nat) : Nat → List Ev
  | 0 => []
  | n + 1 =>
    (mkSubmit i (accepted i) ::
      (if accepted i then [] else [mkSync i]))
      ++ phaseEvents mkSubmit mkSync accepted (i + 1) n

/-- The event sequence of `main` (gocp.go:85-146) for a run with
`nFolderChunks` folder chunks and `nFileChunks` file chunks: scan, the folder
submit loop, the progress bar start, the copy submit loop, `poolCopy.Stop()`
(line 141), `barMain.Finish()` (line 142) — and only then, when `main`
returns, the deferred `poolFolder.Stop()` (line 98). -/
def mainTrace (nFolderChunks nFileChunks : Nat) (fAccepted cAccepted : Nat → Bool) :
    List Ev :=
  [Ev.scanned]
    ++ phaseEvents Ev.folderSubmitted Ev.folderSyncRun fAccepted 0 nFolderChunks
    ++ [Ev.barStarted]
    ++ phaseEvents Ev.copySubmitted Ev.copySyncRun cAccepted 0 nFileChunks
    ++ [Ev.copyPoolStopped, Ev.barFinished, Ev.folderPoolStopped]

/- ---------------------------------------------------------------------------
Concrete instances used by the counterexamples and witnesses.
--------------------------------------------------------------------------- -/

/-- The walk of the spec's end-to-end scenario tree
`{a/1.txt(10B), a/b/2.txt(5B), c/3.txt(0B)}` under root `src`: WalkDir visits
each directory before its children and children in sorted name order. -/
def events9 : List WalkEvent := [
  .entry (s2l "src") true 0,
  .entry (s2l "src/a") true 0,
  .entry (s2l "src/a/1.txt") false 10,
  .entry (s2l "src/a/b") true 0,
  .entry (s2l "src/a/b/2.txt") false 5,
  .entry (s2l "src/c") true 0,
  .entry (s2l "src/c/3.txt") false 0]

/-- A walk that fails midway: root `s` holding a readable file `a` (7 bytes)
and then an unreadable directory `z` (visited, then reported as failing). -/
def eventsC1 : List WalkEvent := [
  .entry (s2l "s") true 0,
  .entry (s2l "s/a") false 7,
  .entry (s2l "s/z") true 0,
  .fail (s2l "s/z")]

/-- A world in which the one scanned file `s/a` is readable. -/
def worldC1 : World := ⟨[(s2l "s/a", [7])], [], [], []⟩

/-- A world with no readable source files and a pre-existing target file. -/
def worldC10 : World := ⟨[], [], [], [(s2l "t/x", [1, 2])]⟩

/- ---------------------------------------------------------------------------
Supporting lemmas: chunking.
--------------------------------------------------------------------------- -/

/-- The `chunkArray` loop exits immediately on an empty list. -/
theorem chunkArrayFuel_nil (cs fuel : Nat) : chunkArrayFuel cs fuel [] = some [] := by
  cases fuel <;> rfl

/-- With chunk size 0 the `chunkArray` loop never terminates on a non-empty
list: the index never advances, so no amount of fuel suffices. -/
theorem chunkArrayFuel_zero (fuel : Nat) (l : List (List Char)) :
    chunkArrayFuel 0 fuel l = if l = [] then some [] else none := by
  induction fuel generalizing l with
  | zero => cases l <;> simp [chunkArrayFuel]
  | succ n ih =>
    cases l with
    | nil => simp [chunkArrayFuel]
    | cons e rest => simp [chunkArrayFuel, ih]

/-- Whenever the `chunkArray` loop terminates, concatenating the chunks it
produced gives back the input list. -/
theorem chunkArrayFuel_flatten (cs : Nat) (fuel : Nat) (l : List (List Char))
    (r : List (List (List Char))) (h : chunkArrayFuel cs fuel l = some r) :
    r.flatten = l := by
  induction fuel generalizing l r with
  | zero =>
    cases l with
    | nil => simp [chunkArrayFuel] at h; subst h; rfl
    | cons e rest => simp [chunkArrayFuel] at h
  | succ n ih =>
    cases l with
    | nil => simp [chunkArrayFuel] at h; subst h; rfl
    | cons e rest =>
      simp only [chunkArrayFuel, Option.map_eq_some'] at h
      obtain ⟨r0, hr0, hr⟩ := h
      subst hr
      rw [List.flatten_cons, ih _ _ hr0, List.take_append_drop]

/-- With a positive chunk size the `chunkArray` loop terminates within
`length` iterations. -/
theorem chunkArrayFuel_total (cs : Nat) (hcs : 0 < cs) (fuel : Nat) :
    ∀ l : List (List Char), l.length ≤ fuel → ∃ r, chunkArrayFuel cs fuel l = some r := by
  induction fuel with
  | zero =>
    intro l hl
    have : l = [] := List.length_eq_zero.mp (Nat.le_zero.mp hl)
    subst this
    exact ⟨[], rfl⟩
  | succ n ih =>
    intro l hl
    cases l with
    | nil => exact ⟨[], rfl⟩
    | cons e rest =>
      have hlen : ((e :: rest).drop cs).length ≤ n := by
        have h1 : (e :: rest).length = rest.length + 1 := rfl
        have h2 : 0 < cs := hcs
        rw [List.length_drop, h1]
        simp only [h1] at hl
        omega
      obtain ⟨r0, hr0⟩ := ih _ hlen
      exact ⟨(e :: rest).take cs :: r0, by simp [chunkArrayFuel, hr0]⟩

/- ---------------------------------------------------------------------------
Supporting lemmas: the chunk size and Go's float rounding.
--------------------------------------------------------------------------- -/

/-- The floor of a natural number plus one half is that number. -/
theorem floor_natCast_add_half (k : Nat) : Int.floor ((k : ℚ) + 1 / 2) = (k : ℤ) := by
  rw [Int.floor_eq_iff]
  constructor
  · push_cast
    linarith
  · push_cast
    linarith

/-- `mathRound` is the identity on (casts of) natural numbers, so the chunk
size the code computes is exactly the Go integer quotient: the `math.Round`
call in gocp.go:94/124 is a no-op on the already-truncated division result. -/
theorem goChunkSize_models_round (n w : Nat) :
    (goChunkSize n w : ℤ) = mathRound ((n / w : Nat) : ℚ) := by
  rw [mathRound, if_neg (not_lt.mpr (by positivity)), floor_natCast_add_half]
  rfl

/-- `specChunkSize` is `mathRound` of the exact rational `n / w`, i.e. the
spec's "round to nearest, not floor" reading of the chunk size. -/
theorem specChunkSize_models_round (n w : Nat) (hw : 0 < w) :
    specChunkSize n w = (mathRound ((n : ℚ) / (w : ℚ))).toNat := by
  have hw0 : (0 : ℚ) < (w : ℚ) := by exact_mod_cast hw
  have hw1 : (w : ℚ) ≠ 0 := ne_of_gt hw0
  have h1 : (n : ℚ) / (w : ℚ) + 1 / 2 = ((2 * n + w : ℕ) : ℚ) / ((2 * w : ℕ) : ℚ) := by
    push_cast
    field_simp
    ring
  rw [mathRound, if_neg (not_lt.mpr (by positivity)), h1, Int.floor_toNat,
    Nat.floor_div_eq_div]
  rfl

/- ---------------------------------------------------------------------------
Supporting lemmas: the copy loop.
--------------------------------------------------------------------------- -/

/-- Each `copyFiles` call on a chunk of `n` files increments the progress
count exactly `n` times, whether or not individual copies fail. -/
theorem copyFiles_completed (s t : List Char) (files : List (List Char)) (st : CopyState) :
    (copyFiles s t files st).completed = st.completed + files.length := by
  induction files generalizing st with
  | nil => simp [copyFiles]
  | cons f rest ih =>
    show (copyFiles s t rest (copyFileStep s t st f)).completed = _
    rw [ih]
    simp [copyFileStep]
    omega

/-- `copyFiles` performs one copy operation per file of the chunk, in order,
with the destination derived by `fileDest`. -/
theorem copyFiles_copies (s t : List Char) (files : List (List Char)) (st : CopyState) :
    (copyFiles s t files st).copies
      = st.copies ++ files.map (fun f => (f, fileDest s t f)) := by
  induction files generalizing st with
  | nil => simp [copyFiles]
  | cons f rest ih =>
    show (copyFiles s t rest (copyFileStep s t st f)).copies = _
    rw [ih]
    simp [copyFileStep]

/-- Folding `copyFiles` over all chunks advances the count by the total
number of files across the chunks. -/
theorem copyFold_completed (s t : List Char) (chunks : List (List (List Char)))
    (st0 : CopyState) :
    (chunks.foldl (fun st c => copyFiles s t c st) st0).completed
      = st0.completed + chunks.flatten.length := by
  induction chunks generalizing st0 with
  | nil => simp
  | cons c rest ih =>
    rw [List.foldl_cons, ih, copyFiles_completed]
    simp
    omega

/-- Projecting the first components out of a pairing map gives the list back. -/
theorem map_fst_of_pairing {α β : Type} (l : List α) (g : α → β) :
    (l.map (fun f => (f, g f))).map Prod.fst = l := by
  induction l with
  | nil => rfl
  | cons a t ih => simp [ih]

/-- Composed form of `map_fst_of_pairing`. -/
theorem map_fst_comp_pairing {α β : Type} (l : List α) (g : α → β) :
    List.map (Prod.fst ∘ fun f => (f, g f)) l = l := by
  induction l with
  | nil => rfl
  | cons a t ih => simp [ih]

/-- Folding `copyFiles` over all chunks performs exactly one copy operation
per file of the concatenation, in order. -/
theorem copyFold_copies (s t : List Char) (chunks : List (List (List Char)))
    (st0 : CopyState) :
    (chunks.foldl (fun st c => copyFiles s t c st) st0).copies
      = st0.copies ++ chunks.flatten.map (fun f => (f, fileDest s t f)) := by
  induction chunks generalizing st0 with
  | nil => simp
  | cons c rest ih =>
    rw [List.foldl_cons, ih, copyFiles_copies]
    simp

/- ---------------------------------------------------------------------------
Supporting lemmas: the lexical path functions.
--------------------------------------------------------------------------- -/

theorem splitOnSlash_ne_nil (l : List Char) : splitOnSlash l ≠ [] := by
  cases l with
  | nil => simp [splitOnSlash]
  | cons c rest =>
    by_cases hc : c = '/'
    · simp [splitOnSlash, hc]
    · cases h : splitOnSlash rest with
      | nil => simp [splitOnSlash, hc, h]
      | cons g gs => simp [splitOnSlash, hc, h]

/-- Splitting distributes over concatenation at a separator. -/
theorem splitOnSlash_append (x y : List Char) :
    splitOnSlash (x ++ '/' :: y) = splitOnSlash x ++ splitOnSlash y := by
  induction x with
  | nil => simp [splitOnSlash]
  | cons c rest ih =>
    by_cases hc : c = '/'
    · simp [splitOnSlash, hc, ih]
    · cases h : splitOnSlash rest with
      | nil => exact absurd h (splitOnSlash_ne_nil rest)
      | cons g gs => simp [splitOnSlash, hc, ih, h]

/-- A separator-free string splits into the single element it is. -/
theorem splitOnSlash_no_slash (c : List Char) (h : '/' ∉ c) : splitOnSlash c = [c] := by
  induction c with
  | nil => rfl
  | cons ch rest ih =>
    have hch : ¬ ch = '/' := by
      intro e
      exact h (by simp [e])
    have hrest : '/' ∉ rest := by
      intro m
      exact h (by simp [m])
    simp [splitOnSlash, hch, ih hrest]

theorem joinSlash_cons (c : List Char) (rest : List (List Char)) :
    ∃ t, joinSlash (c :: rest) = c ++ t := by
  cases rest with
  | nil => exact ⟨[], by simp [joinSlash]⟩
  | cons r rs => exact ⟨'/' :: joinSlash (r :: rs), rfl⟩

theorem joinSlash_append (a b : List (List Char)) (ha : a ≠ []) (hb : b ≠ []) :
    joinSlash (a ++ b) = joinSlash a ++ '/' :: joinSlash b := by
  induction a with
  | nil => exact absurd rfl ha
  | cons c rest ih =>
    cases rest with
    | nil =>
      cases b with
      | nil => exact absurd rfl hb
      | cons b0 bs => simp [joinSlash]
    | cons r rs =>
      show c ++ '/' :: joinSlash ((r :: rs) ++ b)
        = (c ++ '/' :: joinSlash (r :: rs)) ++ '/' :: joinSlash b
      rw [ih (by simp)]
      simp

/-- Splitting undoes joining for separator-free components. -/
theorem splitOnSlash_joinSlash (comps : List (List Char)) (hne : comps ≠ [])
    (h : ∀ c ∈ comps, '/' ∉ c) :
    splitOnSlash (joinSlash comps) = comps := by
  induction comps with
  | nil => exact absurd rfl hne
  | cons c rest ih =>
    cases rest with
    | nil => exact splitOnSlash_no_slash c (h c (by simp))
    | cons r rs =>
      show splitOnSlash (c ++ '/' :: joinSlash (r :: rs)) = c :: r :: rs
      rw [splitOnSlash_append, splitOnSlash_no_slash c (h c (by simp)),
        ih (by simp) (fun x hx => h x (by simp [hx]))]
      rfl

theorem cleanPush_empty (rooted : Bool) (st : List (List Char)) :
    cleanPush rooted st [] = st := by
  simp [cleanPush]

/-- A normal component is simply pushed by `cleanPush`. -/
theorem cleanPush_normal (rooted : Bool) (st : List (List Char)) (c : List Char)
    (h : normalComp c) : cleanPush rooted st c = c :: st := by
  obtain ⟨h1, h2, h3, _⟩ := h
  simp [cleanPush, h1, h2, h3]

/-- Folding `cleanPush` over normal components stacks them up in reverse. -/
theorem foldl_cleanPush_normal (rooted : Bool) (comps : List (List Char))
    (st : List (List Char)) (h : ∀ c ∈ comps, normalComp c) :
    comps.foldl (cleanPush rooted) st = comps.reverse ++ st := by
  induction comps generalizing st with
  | nil => simp
  | cons c rest ih =>
    rw [List.foldl_cons, cleanPush_normal rooted st c (h c (by simp)),
      ih _ (fun x hx => h x (by simp [hx]))]
    simp

theorem isRooted_renderPath (rooted : Bool) (comps : List (List Char))
    (hne : comps ≠ []) (h : ∀ c ∈ comps, normalComp c) :
    isRooted (renderPath rooted comps) = rooted := by
  cases rooted with
  | true => rfl
  | false =>
    cases comps with
    | nil => exact absurd rfl hne
    | cons c rest =>
      obtain ⟨t, ht⟩ := joinSlash_cons c rest
      obtain ⟨hc1, _, _, hc4⟩ := h c (by simp)
      cases c with
      | nil => exact absurd rfl hc1
      | cons ch cs =>
        have hch : ch ≠ '/' := by
          intro e
          exact hc4 (by simp [e])
        show isRooted (joinSlash ((ch :: cs) :: rest)) = false
        rw [ht]
        show (ch == '/') = false
        exact beq_eq_false_iff_ne.mpr hch

theorem renderPath_ne_dot (rooted : Bool) (comps : List (List Char))
    (hne : comps ≠ []) (h : ∀ c ∈ comps, normalComp c) :
    renderPath rooted comps ≠ ['.'] := by
  cases rooted with
  | true =>
    intro he
    have : '/' :: joinSlash comps = ['.'] := he
    simp at this
  | false =>
    cases comps with
    | nil => exact absurd rfl hne
    | cons c rest =>
      intro he
      have he2 : joinSlash (c :: rest) = ['.'] := he
      obtain ⟨hc1, hc2, _, _⟩ := h c (by simp)
      cases rest with
      | nil => exact hc2 he2
      | cons r rs =>
        have he3 : c ++ '/' :: joinSlash (r :: rs) = ['.'] := he2
        have hlen := congrArg List.length he3
        simp at hlen
        have : 0 < c.length := List.length_pos.mpr hc1
        omega

/-- Rendering normal components and cleaning the result round-trips: the
cleaned element list is the component list itself. -/
theorem cleanComps_renderPath (rooted : Bool) (comps : List (List Char))
    (hne : comps ≠ []) (h : ∀ c ∈ comps, normalComp c) :
    cleanComps rooted (renderPath rooted comps) = comps := by
  have hslash : ∀ c ∈ comps, '/' ∉ c := fun c hc => (h c hc).2.2.2
  have hjs := splitOnSlash_joinSlash comps hne hslash
  cases rooted with
  | true =>
    show ((splitOnSlash ('/' :: joinSlash comps)).foldl (cleanPush true) []).reverse = comps
    rw [show splitOnSlash ('/' :: joinSlash comps) = [] :: splitOnSlash (joinSlash comps)
      from by simp [splitOnSlash]]
    rw [hjs, List.foldl_cons, cleanPush_empty, foldl_cleanPush_normal true comps [] h]
    simp
  | false =>
    show ((splitOnSlash (joinSlash comps)).foldl (cleanPush false) []).reverse = comps
    rw [hjs, foldl_cleanPush_normal false comps [] h]
    simp

/-- `pathClean` only depends on the root flag and the cleaned element list. -/
theorem pathClean_congr (a b : List Char) (h1 : isRooted a = isRooted b)
    (h2 : cleanComps (isRooted a) a = cleanComps (isRooted b) b) :
    pathClean a = pathClean b := by
  unfold pathClean
  rw [h1] at h2
  rw [h1, h2]

/-- A path rendered from normal components is already clean. -/
theorem pathClean_renderPath (rooted : Bool) (comps : List (List Char))
    (hne : comps ≠ []) (h : ∀ c ∈ comps, normalComp c) :
    pathClean (renderPath rooted comps) = renderPath rooted comps := by
  have hr := isRooted_renderPath rooted comps hne h
  have hcc := cleanComps_renderPath rooted comps hne h
  unfold pathClean
  rw [hr, hcc, if_neg hne]
  cases rooted with
  | true => rfl
  | false => simp [renderPath]

/-- A joined non-empty list of normal components is a non-empty string. -/
theorem joinSlash_ne_nil (comps : List (List Char)) (hne : comps ≠ [])
    (h : ∀ c ∈ comps, normalComp c) : joinSlash comps ≠ [] := by
  cases comps with
  | nil => exact absurd rfl hne
  | cons c rest =>
    obtain ⟨t, ht⟩ := joinSlash_cons c rest
    obtain ⟨hc1, _, _, _⟩ := h c (by simp)
    rw [ht]
    simp [hc1]

/-- Appending components on the string side: the rendered extension of a
rendered path. -/
theorem renderPath_append (rooted : Bool) (sc rc : List (List Char))
    (hsc : sc ≠ []) (hrc : rc ≠ []) :
    renderPath rooted (sc ++ rc) = renderPath rooted sc ++ '/' :: joinSlash rc := by
  unfold renderPath
  rw [joinSlash_append sc rc hsc hrc]
  simp

/-- The `Rel` element view of a rendered path is its component list. -/
theorem pathElems_renderPath (rooted : Bool) (comps : List (List Char))
    (hne : comps ≠ []) (h : ∀ c ∈ comps, normalComp c) :
    pathElems (renderPath rooted comps) = comps := by
  have hslash : ∀ c ∈ comps, '/' ∉ c := fun c hc => (h c hc).2.2.2
  have hjs := splitOnSlash_joinSlash comps hne hslash
  have hjn := joinSlash_ne_nil comps hne h
  cases rooted with
  | true =>
    show pathElems ('/' :: joinSlash comps) = comps
    unfold pathElems
    simp [hjn, hjs]
  | false =>
    cases comps with
    | nil => exact absurd rfl hne
    | cons c rest =>
      obtain ⟨t, ht⟩ := joinSlash_cons c rest
      obtain ⟨hc1, _, _, hc4⟩ := h c (by simp)
      cases c with
      | nil => exact absurd rfl hc1
      | cons ch cs =>
        have hch : ¬ ch = '/' := by
          intro e
          exact hc4 (by simp [e])
        show pathElems (joinSlash ((ch :: cs) :: rest)) = (ch :: cs) :: rest
        rw [ht]
        show pathElems (ch :: (cs ++ t)) = (ch :: cs) :: rest
        have hpe : pathElems (ch :: (cs ++ t)) = splitOnSlash (ch :: (cs ++ t)) := by
          simp [pathElems, hch]
        rw [hpe, show ch :: (cs ++ t) = joinSlash ((ch :: cs) :: rest) from by rw [ht]; rfl]
        exact hjs

/-- Stripping the common prefix of a list and its own extension leaves
exactly the extension. -/
theorem stripCommon_self_append (sc rc : List (List Char)) :
    stripCommon sc (sc ++ rc) = ([], rc) := by
  induction sc with
  | nil =>
    cases rc with
    | nil => rfl
    | cons r rs => rfl
  | cons b bs ih => simp [stripCommon, ih]

/-- `filepath.Rel` from a rendered root to the root extended by normal
components returns exactly the joined extension. -/
theorem filepathRel_renderPath (rooted : Bool) (sc rc : List (List Char))
    (hsc : sc ≠ []) (hs : ∀ c ∈ sc, normalComp c)
    (hrc : rc ≠ []) (hr : ∀ c ∈ rc, normalComp c) :
    filepathRel (renderPath rooted sc) (renderPath rooted sc ++ '/' :: joinSlash rc)
      = some (joinSlash rc) := by
  have hall : ∀ c ∈ sc ++ rc, normalComp c := by
    intro c hc
    rcases List.mem_append.mp hc with h1 | h2
    · exact hs c h1
    · exact hr c h2
  have hne2 : sc ++ rc ≠ [] := by
    simp [hsc]
  have hne3 : renderPath rooted sc ≠ renderPath rooted (sc ++ rc) := by
    intro he
    have hlen := congrArg List.length he
    rw [renderPath_append rooted sc rc hsc hrc] at hlen
    simp at hlen
  rw [← renderPath_append rooted sc rc hsc hrc]
  simp only [filepathRel]
  rw [pathClean_renderPath rooted sc hsc hs,
    pathClean_renderPath rooted (sc ++ rc) hne2 hall,
    if_neg hne3,
    isRooted_renderPath rooted sc hsc hs,
    isRooted_renderPath rooted (sc ++ rc) hne2 hall,
    if_neg (by simp),
    if_neg (renderPath_ne_dot rooted sc hsc hs),
    pathElems_renderPath rooted sc hsc hs,
    pathElems_renderPath rooted (sc ++ rc) hne2 hall,
    stripCommon_self_append]
  simp

/-- The first occurrence of a prefix is at index 0, so
`strings.Replace(s ++ x, s, "", 1)` strips exactly the prefix `s`. -/
theorem replaceOnce_of_append (s x : List Char) : replaceOnce (s ++ x) s = x := by
  have hfind : findSub (s ++ x) s = some 0 := by
    unfold findSub
    rw [if_pos (List.isPrefixOf_iff_prefix.mpr (List.prefix_append s x))]
  unfold replaceOnce
  rw [hfind]
  simp [List.drop_left]

/-- Cleaning collapses a doubled separator: both joins agree. -/
theorem pathClean_double_slash (t r : List Char) (ht : t ≠ []) :
    pathClean (t ++ '/' :: '/' :: r) = pathClean (t ++ '/' :: r) := by
  obtain ⟨c, t0, rfl⟩ : ∃ c t0, t = c :: t0 := by
    cases t with
    | nil => exact absurd rfl ht
    | cons c t0 => exact ⟨c, t0, rfl⟩
  have h1 : isRooted ((c :: t0) ++ '/' :: '/' :: r) = isRooted ((c :: t0) ++ '/' :: r) := rfl
  apply pathClean_congr _ _ h1
  rw [h1]
  unfold cleanComps
  rw [show ((c :: t0) ++ '/' :: '/' :: r) = (c :: t0) ++ '/' :: ('/' :: r) from rfl,
    splitOnSlash_append, splitOnSlash_append,
    show splitOnSlash ('/' :: r) = [] :: splitOnSlash r from by simp [splitOnSlash],
    List.foldl_append, List.foldl_append, List.foldl_cons, cleanPush_empty]

/- ---------------------------------------------------------------------------
Claim C1.
--------------------------------------------------------------------------- -/

/-- Claim C1, counterexample: on a walk that fails at an unreadable entry
after one readable file was listed, the run both prints the scan error and
still performs a copy operation — the claim that no copy is ever performed
after a failed or partial scan is false of the code. -/
theorem claim1_counterexample :
    (runMain (s2l "s") (s2l "t") true true eventsC1 1 worldC1 10).map
        MainResult.scanErrPrinted = some true ∧
    (runMain (s2l "s") (s2l "t") true true eventsC1 1 worldC1 10).map
        MainResult.copies = some [(s2l "s/a", s2l "t/a")] := by
  decide

/-- Claim C1 (amended): a missing source root makes `main` return before the
scan (with a plain message, not a ScanError); a walk error mid-scan is only
printed — whenever the run terminates, the engine partitions and copies
exactly the files of the (possibly partial) scan, regardless of whether the
scan failed. -/
theorem claim1_amended (src tgt : List Char) (sE tE : Bool) (events : List WalkEvent)
    (th fuel : Nat) (w : World)
    (h : (runMain src tgt sE tE events th w fuel).isSome = true) :
    (sE = false →
      ((runMain src tgt sE tE events th w fuel).getD mrDefault).abortedEarly = true ∧
      ((runMain src tgt sE tE events th w fuel).getD mrDefault).copies = []) ∧
    (sE = true →
      ((runMain src tgt sE tE events th w fuel).getD mrDefault).scanErrPrinted
        = (getFilesAndDir events).errPrinted ∧
      ((runMain src tgt sE tE events th w fuel).getD mrDefault).copies.map Prod.fst
        = (getFilesAndDir events).files) := by
  cases sE with
  | false =>
    refine ⟨fun _ => ⟨rfl, rfl⟩, fun hc => nomatch hc⟩
  | true =>
    refine ⟨(fun hc => nomatch hc), fun _ => ?_⟩
    rcases hf : chunkArrayFuel (goChunkSize (getFilesAndDir events).directories.length th)
        fuel (getFilesAndDir events).directories with _ | folderChunks
    · simp [runMain, hf] at h
    · rcases hc2 : chunkArrayFuel (goChunkSize (getFilesAndDir events).filesCount th)
          fuel (getFilesAndDir events).files with _ | fileChunks
      · simp [runMain, hf, hc2] at h
      · have hfl := chunkArrayFuel_flatten _ _ _ _ hc2
        constructor
        · simp [runMain, hf, hc2]
        · simp [runMain, hf, hc2, copyFold_copies, map_fst_of_pairing, map_fst_comp_pairing, hfl]

/-- Claim C1 (amended), witness at the failing walk `eventsC1`. -/
theorem claim1_amended_witness :
    ((true : Bool) = false →
      ((runMain (s2l "s") (s2l "t") true true eventsC1 1 worldC1 10).getD
          mrDefault).abortedEarly = true ∧
      ((runMain (s2l "s") (s2l "t") true true eventsC1 1 worldC1 10).getD
          mrDefault).copies = []) ∧
    ((true : Bool) = true →
      ((runMain (s2l "s") (s2l "t") true true eventsC1 1 worldC1 10).getD
          mrDefault).scanErrPrinted = (getFilesAndDir eventsC1).errPrinted ∧
      ((runMain (s2l "s") (s2l "t") true true eventsC1 1 worldC1 10).getD
          mrDefault).copies.map Prod.fst = (getFilesAndDir eventsC1).files) :=
  claim1_amended (s2l "s") (s2l "t") true true eventsC1 1 10 worldC1 (by decide)

/- ---------------------------------------------------------------------------
Claim C2.
--------------------------------------------------------------------------- -/

/-- Claim C2: the claim says phase 1 fully drains (`poolFolder.Stop()`
returns) before any phase-2 file copy begins. The code defers
`poolFolder.Stop()` to the end of `main` (gocp.go:98), so in the event order
of `main` the first phase-2 submission precedes the folder pool's stop —
shown here on a run with one folder chunk and one file chunk, all
submissions accepted. -/
theorem claim2_copy_begins_before_folder_pool_stop :
    Ev.folderPoolStopped ∈ mainTrace 1 1 (fun _ => true) (fun _ => true) ∧
    Ev.copySubmitted 0 true ∈ mainTrace 1 1 (fun _ => true) (fun _ => true) ∧
    (mainTrace 1 1 (fun _ => true) (fun _ => true)).indexOf (Ev.copySubmitted 0 true)
      < (mainTrace 1 1 (fun _ => true) (fun _ => true)).indexOf Ev.folderPoolStopped := by
  decide

/- ---------------------------------------------------------------------------
Claim C3.
--------------------------------------------------------------------------- -/

/-- Claim C3, counterexample: with chunk size 0 and the non-empty list
`["a"]`, `chunkArray` does not return a single chunk containing the list —
it never returns at all (no fuel bound suffices). -/
theorem claim3_counterexample :
    chunkArrayFuel 0 1000 [s2l "a"] = none ∧
    ¬ ∃ fuel r, chunkArrayFuel 0 fuel [s2l "a"] = some r := by
  constructor
  · rw [chunkArrayFuel_zero]
    simp
  · rintro ⟨fuel, r, hr⟩
    rw [chunkArrayFuel_zero] at hr
    simp at hr

/-- Claim C3 (amended): when the computed chunk size is 0, `chunkArray`
returns no chunks on an empty list and fails to terminate on a non-empty
list (the loop index never advances); it never degenerates to a single
all-containing chunk. (`workerCount <= 0` cannot reach `chunkArray`: `main`
returns during flag validation when the thread count is 0.) -/
theorem claim3_amended (fuel : Nat) (l : List (List Char)) :
    chunkArrayFuel 0 fuel l = if l = [] then some [] else none :=
  chunkArrayFuel_zero fuel l

/- ---------------------------------------------------------------------------
Claim C4.
--------------------------------------------------------------------------- -/

/-- Claim C4, counterexample: for `L = ["a"]` and `w = 2 > 0` the computed
chunk size is `1 / 2 = 0`, so partitioning never produces any chunks — a
fortiori their concatenation does not reproduce `L`. -/
theorem claim4_counterexample :
    partitionGo [s2l "a"] 2 1000 = none ∧
    ¬ ∃ fuel r, partitionGo [s2l "a"] 2 fuel = some r := by
  have hz : goChunkSize ([s2l "a"] : List (List Char)).length 2 = 0 := rfl
  constructor
  · show chunkArrayFuel (goChunkSize ([s2l "a"] : List (List Char)).length 2)
        1000 [s2l "a"] = none
    rw [hz, chunkArrayFuel_zero]
    simp
  · rintro ⟨fuel, r, hr⟩
    have hr2 : chunkArrayFuel 0 fuel [s2l "a"] = some r := by
      rw [← hz]
      exact hr
    rw [chunkArrayFuel_zero] at hr2
    simp at hr2

/-- Claim C4 (amended): whenever the computed chunk size `len(L) / w` is
positive (in particular whenever `0 < w ≤ len(L)`), or `L` is empty,
partitioning terminates and concatenating its chunks in order reproduces `L`
exactly — no loss, no duplication, order preserved. -/
theorem claim4_amended (l : List (List Char)) (w fuel : Nat)
    (hsize : 0 < goChunkSize l.length w ∨ l = []) (hfuel : l.length ≤ fuel) :
    ∃ r, partitionGo l w fuel = some r ∧ r.flatten = l := by
  rcases hsize with hpos | hnil
  · obtain ⟨r, hr⟩ := chunkArrayFuel_total _ hpos fuel l hfuel
    exact ⟨r, hr, chunkArrayFuel_flatten _ _ _ _ hr⟩
  · subst hnil
    exact ⟨[], chunkArrayFuel_nil _ _, rfl⟩

/-- Claim C4 (amended), witness: three paths, two workers. -/
theorem claim4_amended_witness :
    (0 < goChunkSize ([s2l "a", s2l "b", s2l "c"] : List (List Char)).length 2 ∨
      ([s2l "a", s2l "b", s2l "c"] : List (List Char)) = []) ∧
    ∃ r, partitionGo [s2l "a", s2l "b", s2l "c"] 2 3 = some r ∧
      r.flatten = [s2l "a", s2l "b", s2l "c"] :=
  ⟨Or.inl (by decide),
    claim4_amended [s2l "a", s2l "b", s2l "c"] 2 3 (Or.inl (by decide)) (by decide)⟩

/- ---------------------------------------------------------------------------
Claim C5.
--------------------------------------------------------------------------- -/

/-- Claim C5: in the submit loop, whatever the submit outcomes, every chunk
is paired with exactly one executor — accepted chunks go to a pool worker,
rejected chunks are run synchronously by the caller — and the processed
chunks, in order, are exactly the input chunks: none dropped, none
duplicated. -/
theorem claim5_submit_fallback_exactly_once (accepted : Nat → Bool) (i : Nat)
    (chunks : List (List (List Char))) :
    (submitWithFallback accepted i chunks).map Prod.snd = chunks := by
  induction chunks generalizing i with
  | nil => rfl
  | cons c rest ih =>
    cases hacc : accepted i <;> simp [submitWithFallback, hacc, ih]

/- ---------------------------------------------------------------------------
Claim C6.
--------------------------------------------------------------------------- -/

/-- Claim C6: `copyFiles` on a chunk of `n` files advances the progress
count by exactly `n` (one increment per file, success or failure); across the
chunk sequence the count never exceeds the total and equals the total once
all chunks have been processed. -/
theorem claim6_progress_counts (s t : List Char) (chunks : List (List (List Char)))
    (st0 : CopyState) (total : Nat) (h0 : st0.completed = 0)
    (htot : total = chunks.flatten.length) :
    (∀ files st, (copyFiles s t files st).completed = st.completed + files.length) ∧
    (∀ pre suf, chunks = pre ++ suf →
      (pre.foldl (fun st c => copyFiles s t c st) st0).completed ≤ total) ∧
    (chunks.foldl (fun st c => copyFiles s t c st) st0).completed = total := by
  refine ⟨fun files st => copyFiles_completed s t files st, ?_, ?_⟩
  · intro pre suf hps
    rw [copyFold_completed, h0, htot, hps, List.flatten_append, List.length_append]
    omega
  · rw [copyFold_completed, h0, htot]
    omega

/-- Claim C6, witness: two chunks of one file each, total 2. -/
theorem claim6_progress_counts_witness :
    ((⟨⟨[], [], [], []⟩, [], [], 0⟩ : CopyState).completed = 0) ∧
    ((2 : Nat) = ([[s2l "f"], [s2l "g"]] : List (List (List Char))).flatten.length) ∧
    ((∀ files st, (copyFiles (s2l "s") (s2l "t") files st).completed
        = st.completed + files.length) ∧
      (∀ pre suf, ([[s2l "f"], [s2l "g"]] : List (List (List Char))) = pre ++ suf →
        (pre.foldl (fun st c => copyFiles (s2l "s") (s2l "t") c st)
          (⟨⟨[], [], [], []⟩, [], [], 0⟩ : CopyState)).completed ≤ 2) ∧
      (([[s2l "f"], [s2l "g"]] : List (List (List Char))).foldl
        (fun st c => copyFiles (s2l "s") (s2l "t") c st)
        (⟨⟨[], [], [], []⟩, [], [], 0⟩ : CopyState)).completed = 2) :=
  ⟨rfl, by decide,
    claim6_progress_counts (s2l "s") (s2l "t") [[s2l "f"], [s2l "g"]]
      ⟨⟨[], [], [], []⟩, [], [], 0⟩ 2 rfl (by decide)⟩

/- ---------------------------------------------------------------------------
Claim C7.
--------------------------------------------------------------------------- -/

/-- Claim C7: the claim says the target chunk size is `len / workerCount`
rounded to the *nearest* integer. The code divides first with integer
division and only then applies `math.Round` (a no-op on a whole number), so
at `len = 3, w = 2` the code computes 1 while nearest-integer rounding gives
2 — the chunk size is floored, not rounded. -/
theorem claim7_chunk_size_floors :
    goChunkSize 3 2 = 1 ∧ specChunkSize 3 2 = 2 ∧
    goChunkSize 3 2 ≠ specChunkSize 3 2 := by
  decide

/- ---------------------------------------------------------------------------
Claim C8.
--------------------------------------------------------------------------- -/

/-- Claim C8, counterexample: for `sourceRoot = "."`, target root `"t"` and
the walked file `"a.txt"`, the file copier's string replacement deletes the
first `"."` of the file name, sending the file to `t/atxt`, while the folder
replicator's relative-path derivation yields `t/a.txt` — the two derivations
disagree. -/
theorem claim8_counterexample :
    fileDest (s2l ".") (s2l "t") (s2l "a.txt") = s2l "t/atxt" ∧
    folderDest (s2l ".") (s2l "t") (s2l "a.txt") = s2l "t/a.txt" ∧
    fileDest (s2l ".") (s2l "t") (s2l "a.txt")
      ≠ folderDest (s2l ".") (s2l "t") (s2l "a.txt") := by
  decide

/-- Claim C8 (amended): when the source root is a cleaned path rendered from
normal components (so not `"."` or `"/"`), the target root is non-empty, and
the source path is the root extended by normal components — the shape of
every path `WalkDir` yields under such a root — the file copier's
prefix-replacement derivation and the folder replicator's relative-path
derivation produce the same target path. -/
theorem claim8_amended (rooted : Bool) (sc rc : List (List Char)) (tgt : List Char)
    (hsc : sc ≠ []) (hs : ∀ c ∈ sc, normalComp c)
    (hrc : rc ≠ []) (hr : ∀ c ∈ rc, normalComp c) (htgt : tgt ≠ []) :
    fileDest (renderPath rooted sc) tgt (renderPath rooted sc ++ '/' :: joinSlash rc)
      = folderDest (renderPath rooted sc) tgt
          (renderPath rooted sc ++ '/' :: joinSlash rc) := by
  have hjrc : joinSlash rc ≠ [] := joinSlash_ne_nil rc hrc hr
  have h1 : replaceOnce (renderPath rooted sc ++ '/' :: joinSlash rc)
      (renderPath rooted sc) = '/' :: joinSlash rc := replaceOnce_of_append _ _
  have h2 := filepathRel_renderPath rooted sc rc hsc hs hrc hr
  unfold fileDest folderDest
  rw [h1, h2, Option.getD_some]
  obtain ⟨c, t0, rfl⟩ : ∃ c t0, tgt = c :: t0 := by
    cases tgt with
    | nil => exact absurd rfl htgt
    | cons c t0 => exact ⟨c, t0, rfl⟩
  obtain ⟨j0, js, hj⟩ : ∃ j0 js, joinSlash rc = j0 :: js := by
    cases hjn : joinSlash rc with
    | nil => exact absurd hjn hjrc
    | cons j0 js => exact ⟨j0, js, rfl⟩
  rw [hj]
  show pathClean ((c :: t0) ++ '/' :: '/' :: j0 :: js)
    = pathClean ((c :: t0) ++ '/' :: j0 :: js)
  exact pathClean_double_slash (c :: t0) (j0 :: js) (by simp)

/-- Claim C8 (amended), witness: root `src`, file `src/x`, target `t`. -/
theorem claim8_amended_witness :
    fileDest (renderPath false [s2l "src"]) (s2l "t")
      (renderPath false [s2l "src"] ++ '/' :: joinSlash [s2l "x"])
    = folderDest (renderPath false [s2l "src"]) (s2l "t")
      (renderPath false [s2l "src"] ++ '/' :: joinSlash [s2l "x"]) :=
  claim8_amended false [s2l "src"] [s2l "x"] (s2l "t")
    (by decide) (by decide) (by decide) (by decide) (by decide)

/- ---------------------------------------------------------------------------
Claim C9.
--------------------------------------------------------------------------- -/

/-- Claim C9, counterexample: scanning the scenario tree does not report
folderCount 2 — the walk appends the root and every subdirectory. -/
theorem claim9_counterexample :
    (getFilesAndDir events9).directories.length ≠ 2 := by
  decide

/-- Claim C9 (amended): scanning the scenario tree
`{a/1.txt(10B), a/b/2.txt(5B), c/3.txt(0B)}` reports fileCount 3, totalBytes
15 and folderCount 4 (the root `src` plus `a`, `a/b` and `c`), with no scan
error. -/
theorem claim9_amended :
    (getFilesAndDir events9).filesCount = 3 ∧
    (getFilesAndDir events9).totalSize = 15 ∧
    (getFilesAndDir events9).directories.length = 4 ∧
    (getFilesAndDir events9).errPrinted = false := by
  decide

/- ---------------------------------------------------------------------------
Claim C10.
--------------------------------------------------------------------------- -/

/-- Claim C10: when opening the source file fails, `copyFile` returns the
wrapped open error before `os.Create` runs: the returned world is exactly
the input world, so the destination path is neither created nor truncated. -/
theorem claim10_open_failure_leaves_target_untouched (w : World) (src dst : List Char)
    (h : List.lookup src w.srcFS = none) :
    copyFile w src dst = (Except.error (s2l "Cannot open source file"), w) := by
  simp [copyFile, h]

/-- Claim C10, witness: a missing source and a pre-existing target file. -/
theorem claim10_witness :
    List.lookup (s2l "missing") worldC10.srcFS = none ∧
    copyFile worldC10 (s2l "missing") (s2l "t/x")
      = (Except.error (s2l "Cannot open source file"), worldC10) :=
  ⟨by decide,
    claim10_open_failure_leaves_target_untouched worldC10 (s2l "missing") (s2l "t/x")
      (by decide)⟩

end Gocp
